import Mathlib

deriving instance DecidableEq for Except

/-
Verification of the number-word normalizer and digit highlighter of
`speech_to_numbers.py`.

The embedding covers:
  * `tokenize`        — `re.findall(r"\w+|[^\w\s]", text)` (line 165), ASCII model
  * `word_to_num`     — the `w2n.word_to_num` grammar of the word2number
                        library (version 1.1) that the source imports
  * `replace_number_words` — the greedy longest-match normalizer (lines 159-187)
  * `highlight_numbers`    — `re.sub(r"\b\d+\b", ...)` (lines 189-195)

Python exceptions are modelled with `Except`: `ValueError`, `IndexError` and
`KeyError` become constructors of `PyErr`.  Machine strings are `List Char`
with ASCII semantics for the character classes of `\w`, `\s` and `\d`.
-/

namespace VoiceRec

/-- `\w` of Python's `re`, ASCII model: letters, digits and underscore. -/
def isWordChar (c : Char) : Bool := c.isAlphanum || c = '_'

/-- `\s` of Python's `re`, ASCII model: the six ASCII whitespace characters. -/
def isSpaceChar (c : Char) : Bool :=
  c = ' ' || c = '\t' || c = '\n' || c = '\r' || c = '\x0b' || c = '\x0c'

/-- Concatenation of a list of strings (`''.join`). -/
def joinL {α : Type} : List (List α) → List α := fun l => l.foldr (· ++ ·) []

/-- Accumulator pass of `tokenize`: `cur` holds the reversed word run being
scanned, mirroring the maximal-munch semantics of `re.findall(r"\w+|[^\w\s]")`. -/
def tokAux (cur : List Char) : List Char → List (List Char)
  | [] => if cur.isEmpty then [] else [cur.reverse]
  | c :: cs =>
    if isWordChar c then tokAux (c :: cur) cs
    else
      (if cur.isEmpty then [] else [cur.reverse]) ++
        (if isSpaceChar c then tokAux [] cs else [c] :: tokAux [] cs)

/-- `re.findall(r"\w+|[^\w\s]", text)` of line 165: maximal runs of word
characters become word tokens, any other non-whitespace character becomes a
single-character separator token, whitespace is dropped. -/
def tokenize (text : List Char) : List (List Char) := tokAux [] text

/-- Dropping a prefix by a predicate never lengthens a list. -/
theorem dropWhile_length_le {α : Type} (p : α → Bool) :
    ∀ l : List α, (l.dropWhile p).length ≤ l.length := by
  intro l
  induction l with
  | nil => simp [List.dropWhile]
  | cons c cs ih =>
    by_cases h : p c
    · simpa [List.dropWhile, h] using Nat.le_succ_of_le ih
    · simp [List.dropWhile, h]

/-- Tokenizer written from the specification's words (§4.1): scan left to
right; each maximal run of one-or-more word characters becomes one word-token;
every other single non-whitespace character becomes one separator-token;
whitespace is consumed and dropped; empty input yields an empty sequence. -/
def tokenize_spec : List Char → List (List Char)
  | [] => []
  | c :: cs =>
    if isWordChar c then
      (c :: cs.takeWhile isWordChar) :: tokenize_spec (cs.dropWhile isWordChar)
    else if isSpaceChar c then tokenize_spec cs
    else [c] :: tokenize_spec cs
termination_by l => l.length
decreasing_by
  · exact Nat.lt_succ_of_le (dropWhile_length_le _ _)
  · simp
  · simp

/-- Whitespace split of Python's `str.split()` (no arguments): runs of
non-whitespace characters, with leading/trailing/repeated whitespace ignored. -/
def splitAux (cur : List Char) : List Char → List (List Char)
  | [] => if cur.isEmpty then [] else [cur.reverse]
  | c :: cs =>
    if isSpaceChar c then
      (if cur.isEmpty then [] else [cur.reverse]) ++ splitAux [] cs
    else splitAux (c :: cur) cs

/-- `s.strip().split()` of `w2n.word_to_num`. -/
def splitWS (s : List Char) : List (List Char) := splitAux [] s

/-- The decimal digit character of a value `< 10` (`str` of a digit). -/
def digitChar (n : Nat) : Char := Char.ofNat (48 + n)

/-- Fuelled decimal printer; `fuel` bounds the number of divisions by 10. -/
def toDecFuel : Nat → Nat → List Char → List Char
  | 0, _, acc => acc
  | f + 1, n, acc =>
    if n < 10 then digitChar n :: acc
    else toDecFuel f (n / 10) (digitChar (n % 10) :: acc)

/-- Python's `str` on a non-negative `int`: its decimal digits, no leading
zeros (`str(0) = "0"`). -/
def toDecimal (n : Nat) : List Char := toDecFuel (n + 1) n []

/-- Value of a string of decimal digits, as read by Python's `int`. -/
def natOfDigits (s : List Char) : Nat :=
  s.foldl (fun a c => 10 * a + (c.toNat - 48)) 0

/-- The numeric entries of `american_number_system` in `word2number`'s
`w2n.py`; the special entry `'point'` is kept separately in `pointWord`. -/
def americanNumberSystem : List (List Char × Nat) :=
  [("zero".data, 0), ("one".data, 1), ("two".data, 2), ("three".data, 3),
   ("four".data, 4), ("five".data, 5), ("six".data, 6), ("seven".data, 7),
   ("eight".data, 8), ("nine".data, 9), ("ten".data, 10),
   ("eleven".data, 11), ("twelve".data, 12), ("thirteen".data, 13),
   ("fourteen".data, 14), ("fifteen".data, 15), ("sixteen".data, 16),
   ("seventeen".data, 17), ("eighteen".data, 18), ("nineteen".data, 19),
   ("twenty".data, 20), ("thirty".data, 30), ("forty".data, 40),
   ("fifty".data, 50), ("sixty".data, 60), ("seventy".data, 70),
   ("eighty".data, 80), ("ninety".data, 90),
   ("hundred".data, 100), ("thousand".data, 1000),
   ("million".data, 1000000), ("billion".data, 1000000000)]

/-- The `'point'` key of `american_number_system` (its value is `'.'`). -/
def pointWord : List Char := "point".data

/-- Python's `word in american_number_system` membership test. -/
def inVocab (w : List Char) : Bool :=
  (americanNumberSystem.lookup w).isSome || w = pointWord

/-- `decimal_words` of `w2n.py`: the digit words accepted after `'point'`. -/
def decimalWords : List (List Char) :=
  ["zero".data, "one".data, "two".data, "three".data, "four".data,
   "five".data, "six".data, "seven".data, "eight".data, "nine".data]

/-- The exceptions that can escape the embedded Python code. -/
inductive PyErr : Type where
  | valueError : PyErr
  | indexError : PyErr
  | keyError : PyErr
deriving DecidableEq

/-- Result value of `w2n.word_to_num`: an `int`, or the `float` built as
`total_sum + float('0.' + digits)` when the phrase has a `'point'` part.
The `dec` constructor records the integer part and the decimal digit string. -/
inductive PyVal : Type where
  | int : Nat → PyVal
  | dec : Nat → List Char → PyVal
deriving DecidableEq

/-- Python's `str` of a `w2n.word_to_num` result, as used by
`out.append(str(num))`.  For the `float` case this models `repr` of the IEEE
double as the written decimal; this is exact for the decimal values evaluated
in this file (such as 0.5, whose shortest repr is "0.5"). -/
def pyStrVal : PyVal → List Char
  | .int n => toDecimal n
  | .dec ip ds => toDecimal ip ++ '.' :: ds

/-- `number_formation` of `w2n.py`: values of the words, then the arity
cases of the original (`numbers[0]` on an empty list is an `IndexError`). -/
def number_formation (ws : List (List Char)) : Except PyErr Nat := do
  let vals ← ws.mapM (fun w =>
    match americanNumberSystem.lookup w with
    | some v => Except.ok v
    | none => Except.error PyErr.keyError)
  match vals with
  | [a, b, c, d] => pure (a * b + c + d)
  | [a, b, c] => pure (a * b + c)
  | [a, b] => pure (if a = 100 ∨ b = 100 then a * b else a + b)
  | [] => Except.error PyErr.indexError
  | a :: _ => pure a

/-- `get_decimal_sum` of `w2n.py`: `none` models the `return 0` taken at the
first word that is not a digit word; `some ds` models `float('0.' + ds)`. -/
def get_decimal_sum (ws : List (List Char)) : Option (List Char) :=
  if ws.all (fun w => decide (w ∈ decimalWords)) then
    some (ws.map (fun w => digitChar ((americanNumberSystem.lookup w).getD 0)))
  else none

/-- Python's `list.index` with the `-1` convention used via membership tests
(`clean_numbers.index(w) if w in clean_numbers else -1`). -/
def pyIndex (l : List (List Char)) (w : List Char) : Int :=
  if l.contains w then ((l.indexOf w : Nat) : Int) else -1

/-- The `total_sum` computation of `w2n.word_to_num` on the integer part
`n` of the cleaned word list, with the billion/million/thousand indices. -/
def computeTotal (n : List (List Char)) (bi mi ti : Int) : Except PyErr Nat :=
  match n with
  | [] => Except.ok 0
  | [w] =>
    match americanNumberSystem.lookup w with
    | some v => Except.ok v
    | none => Except.error PyErr.keyError
  | _ => do
    let bPart ←
      if -1 < bi then do
        let m ← number_formation (n.take bi.toNat)
        pure (m * 1000000000)
      else pure 0
    let mPart ←
      if -1 < mi then do
        let m ← number_formation
          (if -1 < bi then (n.take mi.toNat).drop (bi.toNat + 1)
           else n.take mi.toNat)
        pure (m * 1000000)
      else pure 0
    let tPart ←
      if -1 < ti then do
        let m ← number_formation
          (if -1 < mi then (n.take ti.toNat).drop (mi.toNat + 1)
           else if -1 < bi then (n.take ti.toNat).drop (bi.toNat + 1)
           else n.take ti.toNat)
        pure (m * 1000)
      else pure 0
    let hundreds ←
      if -1 < ti ∧ ti ≠ (n.length : Int) - 1 then
        number_formation (n.drop (ti.toNat + 1))
      else if -1 < mi ∧ mi ≠ (n.length : Int) - 1 then
        number_formation (n.drop (mi.toNat + 1))
      else if -1 < bi ∧ bi ≠ (n.length : Int) - 1 then
        number_formation (n.drop (bi.toNat + 1))
      else if ti = -1 ∧ mi = -1 ∧ bi = -1 then
        number_formation n
      else pure 0
    pure (bPart + mPart + tPart + hundreds)

/-- `w2n.word_to_num` (word2number 1.1), the grammar called at line 172:
replace `'-'` by `' '`, lower-case, accept pure digit strings via `int`,
otherwise split, keep only vocabulary words, reject empty/redundant/malformed
word lists with `ValueError`, split off a `'point'` decimal part, and
combine the billion/million/thousand groups. -/
def word_to_num (phrase : List Char) : Except PyErr PyVal :=
  let s := (phrase.map (fun c => if c = '-' then ' ' else c)).map Char.toLower
  if s ≠ [] ∧ s.all Char.isDigit then Except.ok (PyVal.int (natOfDigits s))
  else
    let ws := splitWS s
    let clean := ws.filter inVocab
    if clean = [] then Except.error PyErr.valueError
    else if 1 < clean.count "thousand".data ∨ 1 < clean.count "million".data ∨
        1 < clean.count "billion".data ∨ 1 < clean.count pointWord then
      Except.error PyErr.valueError
    else
      let hasPoint := clean.count pointWord = 1
      let decPart := if hasPoint then clean.drop (clean.indexOf pointWord + 1) else []
      let n := if hasPoint then clean.take (clean.indexOf pointWord) else clean
      let bi := pyIndex n "billion".data
      let mi := pyIndex n "million".data
      let ti := pyIndex n "thousand".data
      if (-1 < ti ∧ (ti < mi ∨ ti < bi)) ∨ (-1 < mi ∧ mi < bi) then
        Except.error PyErr.valueError
      else do
        let total ← computeTotal n bi mi ti
        match decPart with
        | [] => pure (PyVal.int total)
        | _ =>
          match get_decimal_sum decPart with
          | none => pure (PyVal.int total)
          | some ds => pure (PyVal.dec total ds)

/-- `' '.join(tokens)` of line 170. -/
def joinSpaces : List (List Char) → List Char
  | [] => []
  | [x] => x
  | x :: xs => x ++ ' ' :: joinSpaces xs

/-- `' '.join(tokens[i:j]).lower()` of line 170, over a window of tokens. -/
def phraseOf (ws : List (List Char)) : List Char :=
  (joinSpaces ws).map Char.toLower

/-- The inner loop `for j in range(len(tokens), i, -1)` of lines 169-178,
over the suffix `win` of the token list that starts at the current position:
try the window of the first `j` tokens, counting `j` down; a successful parse
returns the printed value and the window length, a `ValueError` moves on to
the next shorter window, and any other exception propagates. -/
def tryGoL (win : List (List Char)) : Nat → Except PyErr (Option (List Char × Nat))
  | 0 => Except.ok none
  | j + 1 =>
    match word_to_num (phraseOf (win.take (j + 1))) with
    | Except.ok v => Except.ok (some (pyStrVal v, j + 1))
    | Except.error PyErr.valueError => tryGoL win j
    | Except.error e => Except.error e

/-- The token walk of lines 166-184, with explicit fuel (one unit per loop
step; every step consumes at least one token, so `tokens.length` suffices).
A word token triggers the window search; on a match the matched tokens are
consumed, otherwise the token is appended unchanged; separators are appended
unchanged. -/
def processFuel : Nat → List (List Char) → Except PyErr (List (List Char))
  | _, [] => Except.ok []
  | 0, _ :: _ => Except.ok []
  | f + 1, t :: rest =>
    if t ≠ [] ∧ t.all isWordChar then
      match tryGoL (t :: rest) (t :: rest).length with
      | Except.error e => Except.error e
      | Except.ok (some (s, k)) =>
        (fun l => s :: l) <$> processFuel f ((t :: rest).drop k)
      | Except.ok none => (fun l => t :: l) <$> processFuel f rest
    else (fun l => t :: l) <$> processFuel f rest

/-- The token walk started with adequate fuel. -/
def processTokens (tk : List (List Char)) : Except PyErr (List (List Char)) :=
  processFuel tk.length tk

/-- One unit of the reassembly of line 185: a single-character non-word token
(`re.fullmatch(r"[^\w]", t)`) is emitted as is, every other unit is emitted
followed by one space. -/
def emitUnit (t : List Char) : List Char :=
  match t with
  | [c] => if isWordChar c then t ++ [' '] else t
  | _ => t ++ [' ']

/-- Python's `str.strip()`: drop leading and trailing whitespace. -/
def pyStrip (s : List Char) : List Char :=
  ((s.dropWhile isSpaceChar).reverse.dropWhile isSpaceChar).reverse

/-- The reassembly of line 185: join the emitted units and strip. -/
def joinOut (out : List (List Char)) : List Char :=
  pyStrip (joinL (out.map emitUnit))

/-- `replace_number_words` of lines 159-187 (the `normalize` entry point of
the specification): a no-op for any language other than `'en'`, otherwise
tokenize, walk the tokens with the greedy matcher, and reassemble. -/
def replace_number_words (text language : List Char) : Except PyErr (List Char) :=
  if language = "en".data then (processTokens (tokenize text)).map joinOut
  else Except.ok text

/-- Opening marker inserted by `highlight_numbers`: `colorama.Fore.YELLOW`. -/
def opMark : List Char := "\x1b[33m".data

/-- Closing marker inserted by `highlight_numbers`: `colorama.Style.RESET_ALL`. -/
def clMark : List Char := "\x1b[0m".data

/-- A piece of the output of `re.sub(r"\b\d+\b", ...)`: an unmatched piece of
the input, or a matched digit run (which the replacement wraps in markers). -/
inductive Chunk : Type where
  | plain : List Char → Chunk
  | num : List Char → Chunk
deriving DecidableEq

mutual

/-- Scanner for `re.sub(r"\b\d+\b", hl, text)`, ASCII model.  `prev` records
whether the previous character was a word character (`\b` holds between a
word character and a non-word character, and at either end of the string).
A digit at a left boundary starts a candidate run, handled by `hlRunAux`;
any other character is an unmatched piece of the input. -/
def hlScan : Bool → List Char → List Chunk
  | _, [] => []
  | prev, c :: cs =>
    if c.isDigit && !prev then hlRunAux [c] cs
    else Chunk.plain [c] :: hlScan (isWordChar c) cs

/-- Candidate digit run (reversed in `acc`): extend while digits last; at the
end the run matches when a right boundary follows (end of input or a
non-word character); a following word character makes `\b` fail for the whole
run (and for every position inside it, whose left neighbour is a digit), so
the run is emitted unmatched. -/
def hlRunAux : List Char → List Char → List Chunk
  | acc, [] => [Chunk.num acc.reverse]
  | acc, c :: cs =>
    if c.isDigit then hlRunAux (c :: acc) cs
    else if isWordChar c then
      Chunk.plain acc.reverse :: Chunk.plain [c] :: hlScan true cs
    else Chunk.num acc.reverse :: Chunk.plain [c] :: hlScan false cs

end

/-- Rendering of one piece of the `re.sub` output: a matched run is wrapped
as `f"{Fore.YELLOW}{n}{Style.RESET_ALL}"` (line 194). -/
def renderChunk : Chunk → List Char
  | Chunk.plain s => s
  | Chunk.num r => opMark ++ r ++ clMark

/-- The input characters carried by a piece, markers excluded. -/
def contentOf : Chunk → List Char
  | Chunk.plain s => s
  | Chunk.num r => r

/-- `highlight_numbers` of lines 189-195: `re.sub(r"\b\d+\b", hl, text)`. -/
def highlight_numbers (text : List Char) : List Char :=
  joinL ((hlScan false text).map renderChunk)

/-- Python's `str.replace(p, '')` for nonempty `p`: remove every occurrence
of `p`, scanning left to right, non-overlapping. -/
def replaceAll (p : List Char) (s : List Char) : List Char :=
  match s with
  | [] => []
  | c :: rest =>
    if p.isPrefixOf (c :: rest) ∧ p ≠ [] then
      replaceAll p (rest.drop (p.length - 1))
    else c :: replaceAll p rest
termination_by s.length
decreasing_by
  all_goals simp only [List.length_drop, List.length_cons]
  all_goals omega

/-- Whether `p` occurs as a contiguous substring of `s`. -/
def containsSub (p : List Char) : List Char → Bool
  | [] => p.isEmpty
  | c :: s => p.isPrefixOf (c :: s) || containsSub p s

/-- Removal of every occurrence of both markers, opening marker first. -/
def stripMarkers (s : List Char) : List Char :=
  replaceAll clMark (replaceAll opMark s)

/-- A word-like unit of the reassembly: a nonempty token of word characters
(unmatched words and the emitted digit strings are both of this shape). -/
def IsWordUnit (w : List Char) : Prop := w ≠ [] ∧ w.all isWordChar = true

/-- A separator character: non-word and non-whitespace. -/
def IsSepChar (c : Char) : Prop := isWordChar c = false ∧ isSpaceChar c = false

/-! ### Character-class facts -/

theorem word_not_space {c : Char} (h : isWordChar c = true) :
    isSpaceChar c = false := by
  by_contra hs
  have hs' : isSpaceChar c = true := by
    cases hh : isSpaceChar c
    · exact absurd hh hs
    · rfl
  simp only [isSpaceChar, Bool.or_eq_true, decide_eq_true_eq] at hs'
  rcases hs' with ((((h1 | h1) | h1) | h1) | h1) | h1 <;>
    (subst h1; exact absurd h (by decide))

theorem digit_word {c : Char} (h : c.isDigit = true) : isWordChar c = true := by
  simp [isWordChar, Char.isAlphanum, h]

theorem digit_not_space {c : Char} (h : c.isDigit = true) :
    isSpaceChar c = false :=
  word_not_space (digit_word h)

theorem digit_toLower {c : Char} (h : c.isDigit = true) : c.toLower = c := by
  simp only [Char.isDigit, Bool.and_eq_true, decide_eq_true_eq] at h
  have h9 : c.toNat ≤ 57 := by
    have h2 := h.2
    rw [UInt32.le_def, BitVec.le_def] at h2
    simpa [Char.toNat, UInt32.toNat] using h2
  simp only [Char.toLower]
  split
  · next hcond => omega
  · rfl

theorem digit_ne_dash {c : Char} (h : c.isDigit = true) :
    (if c = '-' then ' ' else c) = c := by
  split
  · next hh => subst hh; exact absurd h (by decide)
  · rfl

/-! ### C4: unsupported languages are a no-op -/

/-- C4: for every input string and every language tag other than `"en"`,
`replace_number_words` returns the input unchanged (a documented no-op). -/
theorem C4_noop_other_language :
    ∀ (text language : List Char), language ≠ "en".data →
      replace_number_words text language = Except.ok text := by
  intro text language h
  simp [replace_number_words, h]

/-- Instance of `C4_noop_other_language` at a concrete input: the Russian
language tag leaves a concrete string unchanged. -/
theorem C4_noop_other_language_witness :
    replace_number_words "twenty three".data "ru".data =
      Except.ok "twenty three".data :=
  C4_noop_other_language "twenty three".data "ru".data (by decide)

/-! ### C3: the walker is not total -/

/-- C3 (code bug): the claim says `normalize` never fails, but the grammar
raises `IndexError` (not `ValueError`) on the phrase "million thousand"
(`number_formation` is applied to the empty word list before "million"), and
line 177 catches only `ValueError`, so the exception escapes
`replace_number_words`. -/
theorem C3_totality_bug :
    replace_number_words "million thousand".data "en".data =
      Except.error PyErr.indexError := by decide

/-! ### C5: normalization is not idempotent -/

/-- C5 (code bug): the claim says a first pass's output re-normalizes to
itself, but `normalize("point five", "en") = "0.5"` while
`normalize("0.5", "en") = "0 .5"`: the second pass tokenizes the decimal
point as a separator and reassembles it with a space before it, so
`normalize(normalize("point five")) ≠ normalize("point five")`. -/
theorem C5_idempotence_bug :
    replace_number_words "point five".data "en".data = Except.ok "0.5".data ∧
    replace_number_words "0.5".data "en".data = Except.ok "0 .5".data ∧
    "0 .5".data ≠ "0.5".data := by
  refine ⟨by decide, by decide, by decide⟩

/-! ### C2: reassembly -/

/-- C2 counterexample: the claimed output "I have 23 apples." is not what the
code produces.  The grammar drops words that are not number words, so the
window starting at "I" parses as 23 and the whole sentence collapses to "23";
moreover on a no-number input the joiner puts the space after each word unit,
so a separator is preceded (not followed) by a space: "Hello, world!"
reassembles as "Hello ,world !". -/
theorem C2_reassembly_cex :
    replace_number_words "I have twenty three apples.".data "en".data =
      Except.ok "23".data ∧
    replace_number_words "I have twenty three apples.".data "en".data ≠
      Except.ok "I have 23 apples.".data ∧
    replace_number_words "Hello, world!".data "en".data =
      Except.ok "Hello ,world !".data := by
  refine ⟨by decide, by decide, by decide⟩

/-! ### C1: the greedy longest-match window search -/

theorem tryGoL_some (win : List (List Char)) :
    ∀ (j0 j : Nat) (s : List Char),
      tryGoL win j0 = Except.ok (some (s, j)) →
      1 ≤ j ∧ j ≤ j0 ∧
      (∃ v, word_to_num (phraseOf (win.take j)) = Except.ok v ∧ s = pyStrVal v) ∧
      ∀ m, j < m → m ≤ j0 →
        word_to_num (phraseOf (win.take m)) = Except.error PyErr.valueError := by
  intro j0
  induction j0 with
  | zero => intro j s h; simp [tryGoL] at h
  | succ j0 ih =>
    intro j s h
    simp only [tryGoL] at h
    cases heq : word_to_num (phraseOf (win.take (j0 + 1))) with
    | ok v =>
      rw [heq] at h
      simp only [Except.ok.injEq, Option.some.injEq, Prod.mk.injEq] at h
      obtain ⟨hs, hj⟩ := h
      subst hj
      exact ⟨by omega, le_refl _, ⟨v, heq, hs.symm⟩, fun m h1 h2 => by omega⟩
    | error e =>
      cases e with
      | valueError =>
        rw [heq] at h
        obtain ⟨h1, h2, h3, h4⟩ := ih j s h
        refine ⟨h1, by omega, h3, ?_⟩
        intro m hm1 hm2
        rcases Nat.lt_or_ge m (j0 + 1) with hlt | hge
        · exact h4 m hm1 (by omega)
        · have hm : m = j0 + 1 := by omega
          subst hm; exact heq
      | indexError => rw [heq] at h; simp at h
      | keyError => rw [heq] at h; simp at h

/-- C1: the window search is longest-match greedy.  When the inner loop of
lines 169-178 reports a match of `j` tokens on the suffix `win`, the window
of the first `j` tokens (space-joined and lower-cased) parses under the
grammar and yields the reported string, and every strictly longer window up
to the end of the stream fails to parse; in particular
`normalize("twenty three", "en") = "23"` and
`normalize("twenty three thousand", "en") = "23000"`. -/
theorem C1_longest_match :
    (∀ (win : List (List Char)) (j0 j : Nat) (s : List Char),
        tryGoL win j0 = Except.ok (some (s, j)) →
        1 ≤ j ∧ j ≤ j0 ∧
        (∃ v, word_to_num (phraseOf (win.take j)) = Except.ok v ∧ s = pyStrVal v) ∧
        ∀ m, j < m → m ≤ j0 →
          word_to_num (phraseOf (win.take m)) = Except.error PyErr.valueError) ∧
    replace_number_words "twenty three".data "en".data = Except.ok "23".data ∧
    replace_number_words "twenty three thousand".data "en".data =
      Except.ok "23000".data :=
  ⟨tryGoL_some, by decide, by decide⟩

/-- Instance of `C1_longest_match` at a concrete input: on the tokens of
"twenty three thousand" the search reports the full three-token window. -/
theorem C1_longest_match_witness :
    1 ≤ 3 ∧ 3 ≤ 3 ∧
    (∃ v, word_to_num (phraseOf ((tokenize "twenty three thousand".data).take 3)) =
        Except.ok v ∧ "23000".data = pyStrVal v) ∧
    ∀ m, 3 < m → m ≤ 3 →
      word_to_num (phraseOf ((tokenize "twenty three thousand".data).take m)) =
        Except.error PyErr.valueError :=
  C1_longest_match.1 (tokenize "twenty three thousand".data) 3 3 "23000".data
    (by decide)

/-! ### C6: no match means advance by one token -/

/-- C6: when every candidate window starting at a word token fails to parse,
the walker appends the token unchanged and advances by exactly one token; in
particular text with no number words is returned literally. -/
theorem C6_no_match_advance :
    (∀ (t : List Char) (rest : List (List Char)),
        t ≠ [] → t.all isWordChar = true →
        tryGoL (t :: rest) (rest.length + 1) = Except.ok none →
        processTokens (t :: rest) = (fun l => t :: l) <$> processTokens rest) ∧
    replace_number_words "the quick brown fox".data "en".data =
      Except.ok "the quick brown fox".data := by
  constructor
  · intro t rest h1 h2 h3
    simp only [processTokens, List.length_cons, processFuel]
    rw [if_pos ⟨h1, h2⟩]
    rw [h3]
  · decide

/-- Instance of `C6_no_match_advance` at a concrete input: on the tokens of
"the quick brown fox" no window starting at "the" parses, and the walker
emits "the" and moves to the remaining tokens. -/
theorem C6_no_match_advance_witness :
    processTokens ["the".data, "quick".data, "brown".data, "fox".data] =
      (fun l => "the".data :: l) <$>
        processTokens ["quick".data, "brown".data, "fox".data] :=
  C6_no_match_advance.1 "the".data ["quick".data, "brown".data, "fox".data]
    (by decide) (by decide) (by decide)

/-! ### C9: pure digit tokens -/

theorem digit_maps_id {s : List Char} (h : s.all Char.isDigit = true) :
    (s.map (fun c => if c = '-' then ' ' else c)).map Char.toLower = s := by
  induction s with
  | nil => rfl
  | cons c cs ih =>
    simp only [List.all_cons, Bool.and_eq_true] at h
    simp [digit_ne_dash h.1, digit_toLower h.1, ih h.2]

theorem word_to_num_digits {s : List Char} (h1 : s ≠ [])
    (h2 : s.all Char.isDigit = true) :
    word_to_num s = Except.ok (PyVal.int (natOfDigits s)) := by
  simp only [word_to_num, digit_maps_id h2]
  rw [if_pos ⟨h1, h2⟩]

theorem tokAux_all_word :
    ∀ (t cur : List Char), cur ≠ [] → t.all isWordChar = true →
      tokAux cur t = [cur.reverse ++ t] := by
  intro t
  induction t with
  | nil =>
    intro cur h1 _
    simp [tokAux, h1]
  | cons c cs ih =>
    intro cur h1 h2
    simp only [List.all_cons, Bool.and_eq_true] at h2
    simp only [tokAux, h2.1, if_pos]
    rw [ih (c :: cur) (by simp) h2.2]
    simp

theorem tokenize_single {s : List Char} (h1 : s ≠ [])
    (h2 : s.all isWordChar = true) : tokenize s = [s] := by
  cases s with
  | nil => exact absurd rfl h1
  | cons c cs =>
    simp only [List.all_cons, Bool.and_eq_true] at h2
    simp only [tokenize, tokAux, h2.1, if_pos]
    rw [tokAux_all_word cs [c] (by simp) h2.2]
    simp

theorem digitChar_isDigit {m : Nat} (h : m < 10) :
    (digitChar m).isDigit = true := by
  interval_cases m <;> decide

theorem toDecFuel_digits :
    ∀ (f n : Nat) (acc : List Char), acc.all Char.isDigit = true →
      (toDecFuel f n acc).all Char.isDigit = true := by
  intro f
  induction f with
  | zero => intro n acc h; simpa [toDecFuel] using h
  | succ f ih =>
    intro n acc h
    simp only [toDecFuel]
    split
    · next hn => simp [digitChar_isDigit hn, h]
    · exact ih _ _ (by simp [digitChar_isDigit (Nat.mod_lt n (by norm_num)), h])

theorem toDecFuel_ne_nil :
    ∀ (f n : Nat) (acc : List Char), acc ≠ [] → toDecFuel f n acc ≠ [] := by
  intro f
  induction f with
  | zero => intro n acc h; simpa [toDecFuel] using h
  | succ f ih =>
    intro n acc h
    simp only [toDecFuel]
    split
    · simp
    · exact ih _ _ (by simp)

theorem toDecimal_ne_nil (n : Nat) : toDecimal n ≠ [] := by
  simp only [toDecimal, toDecFuel]
  split
  · simp
  · exact toDecFuel_ne_nil _ _ _ (by simp)

theorem toDecimal_digits (n : Nat) : (toDecimal n).all Char.isDigit = true := by
  simp only [toDecimal, toDecFuel]
  split
  · next hn => simp [digitChar_isDigit hn]
  · exact toDecFuel_digits _ _ _
      (by simp [digitChar_isDigit (Nat.mod_lt n (by norm_num))])

theorem all_word_of_all_digit {s : List Char} (h : s.all Char.isDigit = true) :
    s.all isWordChar = true := by
  simp only [List.all_eq_true] at h ⊢
  intro c hc
  exact digit_word (h c hc)

theorem dropWhile_space_word {l : List Char} (h : l.all isWordChar = true) :
    l.dropWhile isSpaceChar = l := by
  cases l with
  | nil => rfl
  | cons c cs =>
    simp only [List.all_cons, Bool.and_eq_true] at h
    simp [List.dropWhile, word_not_space h.1]

theorem emit_word {w : List Char} (h1 : w ≠ []) (h2 : w.all isWordChar = true) :
    emitUnit w = w ++ [' '] := by
  match w with
  | [] => exact absurd rfl h1
  | [c] =>
    simp only [List.all_cons, List.all_nil, Bool.and_true] at h2
    simp [emitUnit, h2]
  | c1 :: c2 :: rest => simp [emitUnit]

theorem strip_word_space {d : List Char} (h1 : d ≠ [])
    (h2 : d.all isWordChar = true) : pyStrip (d ++ [' ']) = d := by
  have hrev : d.reverse.all isWordChar = true := by
    simpa [List.all_reverse] using h2
  have hfront : (d ++ [' ']).dropWhile isSpaceChar = d ++ [' '] := by
    cases d with
    | nil => exact absurd rfl h1
    | cons c cs =>
      simp only [List.all_cons, Bool.and_eq_true] at h2
      simp [List.dropWhile, word_not_space h2.1]
  simp only [pyStrip]
  rw [hfront]
  rw [show (d ++ [' ']).reverse = ' ' :: d.reverse by simp]
  rw [show (' ' :: d.reverse).dropWhile isSpaceChar =
      d.reverse.dropWhile isSpaceChar by
    simp [List.dropWhile, show isSpaceChar ' ' = true from by decide]]
  rw [dropWhile_space_word hrev, List.reverse_reverse]

theorem joinOut_single_word {d : List Char} (h1 : d ≠ [])
    (h2 : d.all isWordChar = true) : joinOut [d] = d := by
  simp only [joinOut, List.map_cons, List.map_nil, joinL, List.foldr,
    emit_word h1 h2, List.append_nil]
  exact strip_word_space h1 h2

theorem digit_map_lower {s : List Char} (h : s.all Char.isDigit = true) :
    s.map Char.toLower = s := by
  induction s with
  | nil => rfl
  | cons c cs ih =>
    simp only [List.all_cons, Bool.and_eq_true] at h
    simp [digit_toLower h.1, ih h.2]

theorem replace_digits {s : List Char} (h1 : s ≠ [])
    (h2 : s.all Char.isDigit = true) :
    replace_number_words s "en".data = Except.ok (toDecimal (natOfDigits s)) := by
  have hw : s.all isWordChar = true := all_word_of_all_digit h2
  have hphrase : phraseOf ([s].take 1) = s := by
    rw [show ([s] : List (List Char)).take 1 = [s] from rfl]
    simp only [phraseOf, joinSpaces]
    exact digit_map_lower h2
  have htry : tryGoL [s] 1 =
      Except.ok (some (pyStrVal (PyVal.int (natOfDigits s)), 1)) := by
    simp only [tryGoL]
    rw [hphrase, word_to_num_digits h1 h2]
  have hpt : processTokens [s] = Except.ok [toDecimal (natOfDigits s)] := by
    simp only [processTokens, List.length_cons, List.length_nil, Nat.zero_add,
      processFuel]
    rw [if_pos ⟨h1, hw⟩, htry]
    rfl
  simp only [replace_number_words, if_pos rfl]
  rw [tokenize_single h1 hw, hpt]
  have hd : toDecimal (natOfDigits s) ≠ [] := toDecimal_ne_nil _
  have hdw : (toDecimal (natOfDigits s)).all isWordChar = true :=
    all_word_of_all_digit (toDecimal_digits _)
  simp only [Except.map]
  rw [joinOut_single_word hd hdw]
  simp

/-- C9: a word token that is a pure digit string is itself accepted by the
grammar (via the `isdigit` branch of `word_to_num`) with its integer value,
and a lone digit token re-normalizes to the decimal string of that value, so
leading zeros are stripped (`normalize("007", "en") = "7"`) and a digit token
is left unchanged exactly when it is already canonical
(`normalize("23", "en") = "23"`). -/
theorem C9_digit_tokens :
    (∀ s : List Char, s ≠ [] → s.all Char.isDigit = true →
        word_to_num s = Except.ok (PyVal.int (natOfDigits s))) ∧
    (∀ s : List Char, s ≠ [] → s.all Char.isDigit = true →
        replace_number_words s "en".data =
          Except.ok (toDecimal (natOfDigits s))) ∧
    replace_number_words "007".data "en".data = Except.ok "7".data ∧
    replace_number_words "23".data "en".data = Except.ok "23".data :=
  ⟨fun _ h1 h2 => word_to_num_digits h1 h2,
   fun _ h1 h2 => replace_digits h1 h2, by decide, by decide⟩

/-- Instance of `C9_digit_tokens` at a concrete input. -/
theorem C9_digit_tokens_witness :
    replace_number_words "42".data "en".data =
      Except.ok (toDecimal (natOfDigits "42".data)) :=
  C9_digit_tokens.2.1 "42".data (by decide) (by decide)

/-! ### C8: the tokenizer -/

theorem joinL_cons {α : Type} (x : List α) (xs : List (List α)) :
    joinL (x :: xs) = x ++ joinL xs := rfl

theorem joinL_append {α : Type} (a b : List (List α)) :
    joinL (a ++ b) = joinL a ++ joinL b := by
  induction a with
  | nil => rfl
  | cons x xs ih => simp [joinL, List.foldr_append, List.append_assoc] at *
                    simp [ih, List.append_assoc]

theorem tokAux_spec :
    ∀ (t cur : List Char),
      tokAux cur t =
        if cur = [] then tokenize_spec t
        else (cur.reverse ++ t.takeWhile isWordChar) ::
          tokenize_spec (t.dropWhile isWordChar) := by
  intro t
  induction t with
  | nil =>
    intro cur
    by_cases h : cur = []
    · simp [tokAux, h, tokenize_spec]
    · simp [tokAux, h, tokenize_spec, List.isEmpty_iff]
  | cons c cs ih =>
    intro cur
    by_cases hw : isWordChar c
    · simp only [tokAux, hw, if_pos]
      rw [ih (c :: cur)]
      by_cases hc : cur = [] <;>
        simp [hc, tokenize_spec, hw, List.takeWhile_cons, List.dropWhile_cons]
    · by_cases hs : isSpaceChar c
      · simp only [tokAux, hw, hs]
        rw [ih []]
        by_cases hc : cur = [] <;>
          simp [hc, tokenize_spec, hw, hs, List.takeWhile_cons,
            List.dropWhile_cons, List.isEmpty_iff]
      · simp only [tokAux, hw, hs]
        rw [ih []]
        by_cases hc : cur = [] <;>
          simp [hc, tokenize_spec, hw, hs, List.takeWhile_cons,
            List.dropWhile_cons, List.isEmpty_iff]

theorem tokAux_cons_space {c : Char} {cs cur : List Char}
    (hw : ¬ isWordChar c = true) (hs : isSpaceChar c = true) :
    tokAux cur (c :: cs) =
      (if cur.isEmpty then [] else [cur.reverse]) ++ tokAux [] cs := by
  simp [tokAux, hw, hs]

theorem tokAux_cons_sep {c : Char} {cs cur : List Char}
    (hw : ¬ isWordChar c = true) (hs : ¬ isSpaceChar c = true) :
    tokAux cur (c :: cs) =
      (if cur.isEmpty then [] else [cur.reverse]) ++ ([c] :: tokAux [] cs) := by
  simp [tokAux, hw, hs]

theorem tokAux_join :
    ∀ (t cur : List Char),
      joinL (tokAux cur t) = cur.reverse ++ t.filter (fun c => !isSpaceChar c) := by
  intro t
  induction t with
  | nil =>
    intro cur
    by_cases h : cur = [] <;> simp [tokAux, h, joinL, List.isEmpty_iff]
  | cons c cs ih =>
    intro cur
    by_cases hw : isWordChar c
    · simp only [tokAux, hw, if_pos]
      rw [ih (c :: cur)]
      simp [List.filter_cons, word_not_space hw, List.append_assoc]
    · by_cases hs : isSpaceChar c
      · rw [tokAux_cons_space hw hs, joinL_append, ih []]
        by_cases hc : cur = [] <;>
          simp [hc, joinL, List.filter_cons, hs, List.isEmpty_iff]
      · rw [tokAux_cons_sep hw hs, joinL_append, joinL_cons, ih []]
        by_cases hc : cur = [] <;>
          simp [hc, joinL, List.filter_cons, hs, List.isEmpty_iff]

theorem tokAux_shape :
    ∀ (t cur : List Char), cur.all isWordChar = true →
      ∀ tok ∈ tokAux cur t, tok ≠ [] ∧
        (tok.all isWordChar = true ∨
          (tok.length = 1 ∧ tok.all (fun c => !isWordChar c && !isSpaceChar c) = true)) := by
  intro t
  induction t with
  | nil =>
    intro cur hcur tok htok
    by_cases h : cur = []
    · simp [tokAux, h] at htok
    · simp only [tokAux] at htok
      rw [if_neg (by simpa [List.isEmpty_iff] using h)] at htok
      rw [List.mem_singleton] at htok
      subst htok
      refine ⟨by simpa using h, Or.inl ?_⟩
      simpa [List.all_reverse] using hcur
  | cons c cs ih =>
    intro cur hcur tok htok
    by_cases hw : isWordChar c
    · simp only [tokAux, hw, if_pos] at htok
      exact ih (c :: cur) (by simp [hcur, hw]) tok htok
    · have hcurtok : tok ∈ (if cur.isEmpty then ([] : List (List Char))
          else [cur.reverse]) → tok ≠ [] ∧
          (tok.all isWordChar = true ∨
            (tok.length = 1 ∧
              tok.all (fun c => !isWordChar c && !isSpaceChar c) = true)) := by
        intro h1
        by_cases h : cur = []
        · rw [if_pos (by simpa [List.isEmpty_iff] using h)] at h1
          simp at h1
        · rw [if_neg (by simpa [List.isEmpty_iff] using h)] at h1
          rw [List.mem_singleton] at h1
          subst h1
          refine ⟨by simpa using h, Or.inl ?_⟩
          simpa [List.all_reverse] using hcur
      by_cases hs : isSpaceChar c
      · rw [tokAux_cons_space hw hs, List.mem_append] at htok
        rcases htok with h1 | h2
        · exact hcurtok h1
        · exact ih [] (by simp) tok h2
      · rw [tokAux_cons_sep hw hs, List.mem_append] at htok
        rcases htok with h1 | h2
        · exact hcurtok h1
        · rw [List.mem_cons] at h2
          rcases h2 with h3 | h4
          · subst h3
            exact ⟨by simp, Or.inr ⟨rfl, by simp [hw, hs]⟩⟩
          · exact ih [] (by simp) tok h4

/-- C8: the tokenizer turns each maximal run of word characters into one
word token and each other single non-whitespace character into one separator
token, drops all whitespace, preserves order (concatenating the tokens gives
the input with its whitespace removed), and maps empty input to the empty
sequence; it agrees with `tokenize_spec`, the scanner written from the
specification's words. -/
theorem C8_tokenizer :
    tokenize [] = [] ∧
    (∀ t : List Char, tokenize t = tokenize_spec t) ∧
    (∀ t : List Char, joinL (tokenize t) = t.filter (fun c => !isSpaceChar c)) ∧
    (∀ (t tok : List Char), tok ∈ tokenize t → tok ≠ [] ∧
      (tok.all isWordChar = true ∨
        (tok.length = 1 ∧ tok.all (fun c => !isWordChar c && !isSpaceChar c) = true))) := by
  refine ⟨rfl, ?_, ?_, ?_⟩
  · intro t
    have := tokAux_spec t []
    simpa [tokenize] using this
  · intro t
    have := tokAux_join t []
    simpa [tokenize] using this
  · intro t tok htok
    exact tokAux_shape t [] (by simp) tok htok

/-- Instance of `C8_tokenizer` at a concrete input: the separator token ","
of "a b," is nonempty and a single non-word non-space character. -/
theorem C8_tokenizer_witness :
    (",".data ≠ [] ∧
      (",".data.all isWordChar = true ∨
        (",".data.length = 1 ∧
          ",".data.all (fun c => !isWordChar c && !isSpaceChar c) = true))) :=
  C8_tokenizer.2.2.2 "a b,".data ",".data (by decide)

/-! ### C2 (amended): the actual reassembly convention -/

theorem emit_sep {c : Char} (h : IsSepChar c) : emitUnit [c] = [c] := by
  simp [emitUnit, h.1]

theorem pyStrip_cons_snoc {a b : Char} (m : List Char)
    (ha : isSpaceChar a = false) (hb : isSpaceChar b = false) :
    pyStrip ((a :: (m ++ [b])) ++ [' ']) = a :: (m ++ [b]) := by
  simp only [pyStrip]
  rw [show ((a :: (m ++ [b])) ++ [' ']).dropWhile isSpaceChar =
      (a :: (m ++ [b])) ++ [' '] by simp [List.dropWhile, ha]]
  rw [show ((a :: (m ++ [b])) ++ [' ']).reverse =
      ' ' :: b :: (m.reverse ++ [a]) by simp]
  rw [show (' ' :: b :: (m.reverse ++ [a])).dropWhile isSpaceChar =
      b :: (m.reverse ++ [a]) by
    simp [List.dropWhile, hb, show isSpaceChar ' ' = true from by decide]]
  simp

theorem pyStrip_id_ends {a b : Char} (m : List Char)
    (ha : isSpaceChar a = false) (hb : isSpaceChar b = false) :
    pyStrip (a :: (m ++ [b])) = a :: (m ++ [b]) := by
  simp only [pyStrip]
  rw [show (a :: (m ++ [b])).dropWhile isSpaceChar = a :: (m ++ [b]) by
    simp [List.dropWhile, ha]]
  rw [show (a :: (m ++ [b])).reverse = b :: (m.reverse ++ [a]) by simp]
  rw [show (b :: (m.reverse ++ [a])).dropWhile isSpaceChar =
      b :: (m.reverse ++ [a]) by simp [List.dropWhile, hb]]
  simp

theorem joinOut_word_word {w1 w2 : List Char}
    (h1 : IsWordUnit w1) (h2 : IsWordUnit w2) :
    joinOut [w1, w2] = w1 ++ ' ' :: w2 := by
  obtain ⟨h1n, h1w⟩ := h1
  obtain ⟨h2n, h2w⟩ := h2
  obtain ⟨a, w1', rfl⟩ : ∃ a w1', w1 = a :: w1' := by
    cases w1 with
    | nil => exact absurd rfl h1n
    | cons a w1' => exact ⟨a, w1', rfl⟩
  rcases List.eq_nil_or_concat w2 with h | ⟨m2, b, rfl⟩
  · exact absurd h h2n
  simp only [List.concat_eq_append] at h2n h2w ⊢
  have ha : isSpaceChar a = false :=
    word_not_space (by simp [List.all_cons] at h1w; exact h1w.1)
  have hb : isSpaceChar b = false :=
    word_not_space (by
      rw [List.all_eq_true] at h2w
      exact h2w b (by simp))
  have hjoin : joinOut [a :: w1', m2 ++ [b]] =
      pyStrip ((a :: ((w1' ++ ' ' :: m2) ++ [b])) ++ [' ']) := by
    simp only [joinOut, List.map_cons, List.map_nil, joinL, List.foldr,
      emit_word h1n h1w, emit_word h2n h2w, List.append_nil]
    congr 1
    simp [List.append_assoc]
  rw [hjoin, show (a :: ((w1' ++ ' ' :: m2) ++ [b])) =
      (a :: ((w1' ++ ' ' :: m2) ++ [b])) from rfl]
  rw [pyStrip_cons_snoc _ ha hb]
  simp [List.append_assoc]

theorem joinOut_word_sep {w : List Char} {c : Char}
    (h1 : IsWordUnit w) (h2 : IsSepChar c) :
    joinOut [w, [c]] = w ++ [' ', c] := by
  obtain ⟨h1n, h1w⟩ := h1
  obtain ⟨a, w', rfl⟩ : ∃ a w', w = a :: w' := by
    cases w with
    | nil => exact absurd rfl h1n
    | cons a w' => exact ⟨a, w', rfl⟩
  have ha : isSpaceChar a = false :=
    word_not_space (by simp [List.all_cons] at h1w; exact h1w.1)
  have hc : isSpaceChar c = false := h2.2
  have hjoin : joinOut [a :: w', [c]] =
      pyStrip (a :: ((w' ++ [' ']) ++ [c])) := by
    simp only [joinOut, List.map_cons, List.map_nil, joinL, List.foldr,
      emit_word h1n h1w, emit_sep h2, List.append_nil]
    congr 1
  rw [hjoin, pyStrip_id_ends _ ha hc]
  simp [List.append_assoc]

theorem joinOut_sep_word {c : Char} {w : List Char}
    (h1 : IsSepChar c) (h2 : IsWordUnit w) :
    joinOut [[c], w] = c :: w := by
  obtain ⟨h2n, h2w⟩ := h2
  rcases List.eq_nil_or_concat w with h | ⟨m, b, rfl⟩
  · exact absurd h h2n
  simp only [List.concat_eq_append] at h2n h2w ⊢
  have hc : isSpaceChar c = false := h1.2
  have hb : isSpaceChar b = false :=
    word_not_space (by
      rw [List.all_eq_true] at h2w
      exact h2w b (by simp))
  have hjoin : joinOut [[c], m ++ [b]] =
      pyStrip ((c :: (m ++ [b])) ++ [' ']) := by
    simp only [joinOut, List.map_cons, List.map_nil, joinL, List.foldr,
      emit_word h2n h2w, emit_sep h1, List.append_nil]
    congr 1
  rw [hjoin, pyStrip_cons_snoc _ hc hb]

/-- C2 (amended): the reassembly of line 185 emits each word-like unit
followed by exactly one space and each separator with no following space, so
a separator is preceded by a space when a word-like unit precedes it and
attaches directly to the unit that follows it; leading and trailing
whitespace is stripped.  Moreover
`normalize("I have twenty three apples.", "en") = "23"`: the grammar ignores
unrecognized words, so the greedy window starting at "I" consumes the whole
sentence as one number phrase. -/
theorem C2_reassembly_amended :
    (∀ w1 w2 : List Char, IsWordUnit w1 → IsWordUnit w2 →
        joinOut [w1, w2] = w1 ++ ' ' :: w2) ∧
    (∀ (w : List Char) (c : Char), IsWordUnit w → IsSepChar c →
        joinOut [w, [c]] = w ++ [' ', c]) ∧
    (∀ (c : Char) (w : List Char), IsSepChar c → IsWordUnit w →
        joinOut [[c], w] = c :: w) ∧
    replace_number_words "I have twenty three apples.".data "en".data =
      Except.ok "23".data :=
  ⟨fun _ _ h1 h2 => joinOut_word_word h1 h2,
   fun _ _ h1 h2 => joinOut_word_sep h1 h2,
   fun _ _ h1 h2 => joinOut_sep_word h1 h2, by decide⟩

/-- Instance of `C2_reassembly_amended` at concrete inputs: "apples" followed
by "." reassembles with the space before the period, and "," followed by
"world" attaches directly. -/
theorem C2_reassembly_amended_witness :
    joinOut ["apples".data, ".".data] = "apples".data ++ [' ', '.'] ∧
    joinOut [",".data, "world".data] = ',' :: "world".data :=
  ⟨C2_reassembly_amended.2.1 "apples".data '.' ⟨by decide, by decide⟩
      ⟨by decide, by decide⟩,
   C2_reassembly_amended.2.2.1 ',' "world".data ⟨by decide, by decide⟩
      ⟨by decide, by decide⟩⟩

/-! ### C7: the highlighter -/

theorem hl_contents_aux :
    ∀ (n : Nat) (t : List Char), t.length ≤ n →
      (∀ prev, joinL ((hlScan prev t).map contentOf) = t) ∧
      (∀ acc, joinL ((hlRunAux acc t).map contentOf) = acc.reverse ++ t) := by
  intro n
  induction n with
  | zero =>
    intro t ht
    have hnil : t = [] := List.eq_nil_of_length_eq_zero (Nat.le_zero.mp ht)
    subst hnil
    constructor
    · intro prev; simp [hlScan, joinL]
    · intro acc; simp [hlRunAux, joinL, contentOf]
  | succ n ih =>
    intro t ht
    cases t with
    | nil =>
      constructor
      · intro prev; simp [hlScan, joinL]
      · intro acc; simp [hlRunAux, joinL, contentOf]
    | cons c cs =>
      have hcs := ih cs (by
        simp only [List.length_cons] at ht
        omega)
      constructor
      · intro prev
        cases hcond : (c.isDigit && !prev) with
        | true =>
          simp only [hlScan, hcond, if_true]
          rw [hcs.2 [c]]
          simp
        | false =>
          simp only [hlScan, hcond, Bool.false_eq_true, if_false, List.map_cons,
            joinL_cons, contentOf]
          rw [hcs.1 (isWordChar c)]
          simp
      · intro acc
        cases hd : c.isDigit with
        | true =>
          simp only [hlRunAux, hd, if_true]
          rw [hcs.2 (c :: acc)]
          simp
        | false =>
          cases hw : isWordChar c with
          | true =>
            simp only [hlRunAux, hd, hw, Bool.false_eq_true, if_false, if_true,
              List.map_cons, joinL_cons, contentOf]
            rw [hcs.1 true]
            simp
          | false =>
            simp only [hlRunAux, hd, hw, Bool.false_eq_true, if_false,
              List.map_cons, joinL_cons, contentOf]
            rw [hcs.1 false]
            simp

theorem hl_contents (t : List Char) (prev : Bool) :
    joinL ((hlScan prev t).map contentOf) = t :=
  (hl_contents_aux t.length t le_rfl).1 prev

theorem hl_num_shape_aux :
    ∀ (n : Nat) (t : List Char), t.length ≤ n →
      (∀ (prev : Bool) (r : List Char), Chunk.num r ∈ hlScan prev t →
        r ≠ [] ∧ r.all Char.isDigit = true) ∧
      (∀ (acc r : List Char), acc ≠ [] → acc.all Char.isDigit = true →
        Chunk.num r ∈ hlRunAux acc t → r ≠ [] ∧ r.all Char.isDigit = true) := by
  intro n
  induction n with
  | zero =>
    intro t ht
    have hnil : t = [] := List.eq_nil_of_length_eq_zero (Nat.le_zero.mp ht)
    subst hnil
    constructor
    · intro prev r h; simp [hlScan] at h
    · intro acc r hne hd h
      simp only [hlRunAux, List.mem_singleton] at h
      cases h
      exact ⟨by simpa using hne, by simpa [List.all_reverse] using hd⟩
  | succ n ih =>
    intro t ht
    cases t with
    | nil =>
      constructor
      · intro prev r h; simp [hlScan] at h
      · intro acc r hne hd h
        simp only [hlRunAux, List.mem_singleton] at h
        cases h
        exact ⟨by simpa using hne, by simpa [List.all_reverse] using hd⟩
    | cons c cs =>
      have hcs := ih cs (by
        simp only [List.length_cons] at ht
        omega)
      constructor
      · intro prev r h
        cases hcond : (c.isDigit && !prev) with
        | true =>
          simp only [hlScan, hcond, if_true] at h
          have hcd : c.isDigit = true := by
            rcases Bool.and_eq_true_iff.mp hcond with ⟨h1, _⟩
            exact h1
          exact hcs.2 [c] r (by simp) (by simp [hcd]) h
        | false =>
          simp only [hlScan, hcond, Bool.false_eq_true, if_false,
            List.mem_cons] at h
          rcases h with h1 | h2
          · cases h1
          · exact hcs.1 (isWordChar c) r h2
      · intro acc r hne hd h
        cases hcd : c.isDigit with
        | true =>
          simp only [hlRunAux, hcd, if_true] at h
          exact hcs.2 (c :: acc) r (by simp) (by simp [hcd, hd]) h
        | false =>
          cases hw : isWordChar c with
          | true =>
            simp only [hlRunAux, hcd, hw, Bool.false_eq_true, if_false, if_true,
              List.mem_cons] at h
            rcases h with h1 | h2 | h3
            · cases h1
            · cases h2
            · exact hcs.1 true r h3
          | false =>
            simp only [hlRunAux, hcd, hw, Bool.false_eq_true, if_false,
              List.mem_cons] at h
            rcases h with h1 | h2 | h3
            · cases h1
              exact ⟨by simpa using hne, by simpa [List.all_reverse] using hd⟩
            · cases h2
            · exact hcs.1 false r h3

theorem hl_num_shape (t : List Char) (prev : Bool) (r : List Char)
    (h : Chunk.num r ∈ hlScan prev t) : r ≠ [] ∧ r.all Char.isDigit = true :=
  (hl_num_shape_aux t.length t le_rfl).1 prev r h

/-- C7: the highlighter wraps exactly the maximal word-boundary-delimited
digit runs: "23" in "I have 23 apples" is wrapped in the yellow/reset
markers, the digits of "abc123" and "room404" are left unmarked, every input
character is preserved (the non-marker contents of the output pieces
concatenate to the input), and every marked piece is a nonempty run of
decimal digits. -/
theorem C7_highlight_boundary :
    highlight_numbers "I have 23 apples".data =
      "I have ".data ++ opMark ++ "23".data ++ clMark ++ " apples".data ∧
    highlight_numbers "abc123".data = "abc123".data ∧
    highlight_numbers "room404".data = "room404".data ∧
    (∀ t : List Char, joinL ((hlScan false t).map contentOf) = t) ∧
    (∀ (t r : List Char), Chunk.num r ∈ hlScan false t →
      r ≠ [] ∧ r.all Char.isDigit = true) :=
  ⟨by decide, by decide, by decide, fun t => hl_contents t false,
   fun t r h => hl_num_shape t false r h⟩

/-- Instance of `C7_highlight_boundary` at a concrete input: the marked run
of "a 9" is the nonempty digit string "9". -/
theorem C7_highlight_boundary_witness :
    "9".data ≠ [] ∧ "9".data.all Char.isDigit = true :=
  C7_highlight_boundary.2.2.2.2 "a 9".data "9".data (by decide)

/-! ### C10: marker stripping -/

theorem replaceAll_nil (p : List Char) : replaceAll p [] = [] := by
  rw [replaceAll]

theorem replaceAll_pos {p : List Char} {c : Char} {rest : List Char}
    (hp : p ≠ []) (h : p.isPrefixOf (c :: rest) = true) :
    replaceAll p (c :: rest) = replaceAll p (rest.drop (p.length - 1)) := by
  rw [replaceAll, if_pos ⟨h, hp⟩]

theorem replaceAll_neg {p : List Char} {c : Char} {rest : List Char}
    (h : ¬ (p.isPrefixOf (c :: rest) = true ∧ p ≠ [])) :
    replaceAll p (c :: rest) = c :: replaceAll p rest := by
  rw [replaceAll, if_neg h]

theorem replaceAll_of_not_contains {p : List Char} (_hp : p ≠ []) :
    ∀ {s : List Char}, containsSub p s = false → replaceAll p s = s := by
  intro s
  induction s with
  | nil => intro _; exact replaceAll_nil p
  | cons c cs ih =>
    intro h
    simp only [containsSub, Bool.or_eq_false_iff] at h
    rw [replaceAll_neg (by simp [h.1])]
    rw [ih h.2]

theorem replaceAll_skip {p : List Char} (_hp : p ≠ []) :
    ∀ (x z : List Char),
      (∀ x2, x2 ≠ [] → x2 <:+ x → p.isPrefixOf (x2 ++ z) = false) →
      replaceAll p (x ++ z) = x ++ replaceAll p z := by
  intro x
  induction x with
  | nil => intro z _; simp
  | cons c x' ih =>
    intro z H
    have hpre : p.isPrefixOf ((c :: x') ++ z) = false :=
      H (c :: x') (by simp) (List.suffix_refl _)
    rw [List.cons_append]
    rw [replaceAll_neg (by
      rw [List.cons_append] at hpre
      simp [hpre])]
    rw [ih z (fun x2 hne hsuf => H x2 hne (hsuf.trans (List.suffix_cons c x')))]
    simp

theorem replaceAll_head {p : List Char} (hp : p ≠ []) (z : List Char) :
    replaceAll p (p ++ z) = replaceAll p z := by
  cases p with
  | nil => exact absurd rfl hp
  | cons a p' =>
    have hpre : (a :: p').isPrefixOf ((a :: p') ++ z) = true :=
      List.isPrefixOf_iff_prefix.mpr (List.prefix_append _ _)
    rw [List.cons_append] at hpre ⊢
    rw [replaceAll_pos hp hpre]
    have : (a :: p').length - 1 = p'.length := by simp
    rw [this, List.drop_left]

theorem prefix_long {p x z : List Char} (h : p.isPrefixOf (x ++ z) = true)
    (hl : p.length ≤ x.length) : p <+: x := by
  rw [List.isPrefixOf_iff_prefix] at h
  have h1 : p = (x ++ z).take p.length := List.prefix_iff_eq_take.mp h
  rw [List.take_append_of_le_length hl] at h1
  rw [h1]
  exact List.take_prefix _ _

theorem prefix_cross {p x z : List Char} (h : p.isPrefixOf (x ++ z) = true)
    (hl : x.length ≤ p.length) : p.take x.length = x := by
  rw [List.isPrefixOf_iff_prefix] at h
  obtain ⟨t, ht⟩ := h
  have h1 : x = (x ++ z).take x.length := by
    rw [List.take_append_of_le_length (le_refl _), List.take_length]
  rw [← ht, List.take_append_of_le_length hl] at h1
  exact h1.symm

theorem prefix_split {p x z : List Char} (h : p.isPrefixOf (x ++ z) = true)
    (hl : x.length ≤ p.length) : p.drop x.length = z.take (p.length - x.length) := by
  rw [List.isPrefixOf_iff_prefix] at h
  have h1 : p = (x ++ z).take p.length := List.prefix_iff_eq_take.mp h
  rw [List.take_append_eq_append_take] at h1
  have h2 : x.take p.length = x := List.take_of_length_le hl
  rw [h2] at h1
  calc p.drop x.length = (x ++ z.take (p.length - x.length)).drop x.length := by
        rw [← h1]
    _ = z.take (p.length - x.length) := List.drop_left _ _

theorem suffix_drop_eq {x2 x : List Char} (h : x2 <:+ x) :
    x2 = x.drop (x.length - x2.length) := by
  obtain ⟨pre, rfl⟩ := h
  have h1 : (pre ++ x2).length - x2.length = pre.length := by simp
  rw [h1, List.drop_left]

theorem containsSub_of_infix {p s : List Char} (h : p <:+: s) :
    containsSub p s = true := by
  obtain ⟨u, v, rfl⟩ := h
  induction u with
  | nil =>
    cases p with
    | nil => cases v <;> simp [containsSub, List.isPrefixOf]
    | cons a p' =>
      simp only [List.nil_append, List.cons_append, containsSub]
      have : (a :: p').isPrefixOf (a :: (p' ++ v)) = true := by
        rw [← List.cons_append]
        exact List.isPrefixOf_iff_prefix.mpr (List.prefix_append _ _)
      simp [this]
  | cons c u' ih =>
    simp only [List.cons_append, containsSub]
    simp only [Bool.or_eq_true]
    exact Or.inr (by simpa [List.append_assoc] using ih)

theorem containsSub_append_right {p x y : List Char}
    (h : containsSub p y = true) : containsSub p (x ++ y) = true := by
  induction x with
  | nil => simpa using h
  | cons c x' ih =>
    simp only [List.cons_append, containsSub]
    simp [ih]

theorem op_ne_nil : opMark ≠ [] := by decide

theorem cl_ne_nil : clMark ≠ [] := by decide

theorem op_no_self_overlap :
    ∀ k : Nat, 0 < k → k < 5 → opMark.drop k ≠ opMark.take (5 - k) := by
  intro k h1 h2
  interval_cases k <;> decide

theorem cl_no_self_overlap :
    ∀ k : Nat, 0 < k → k < 4 → clMark.drop k ≠ clMark.take (4 - k) := by
  intro k h1 h2
  interval_cases k <;> decide

theorem opTake_ne_clDrop :
    ∀ k : Nat, 0 < k → k ≤ 4 → opMark.take k ≠ clMark.drop (4 - k) := by
  intro k h1 h2
  interval_cases k <;> decide

theorem opMark_not_prefix_digit {c : Char} (hc : c.isDigit = true)
    (w : List Char) : opMark.isPrefixOf (c :: w) = false := by
  cases hpre : opMark.isPrefixOf (c :: w) with
  | false => rfl
  | true =>
    exfalso
    rw [show opMark = '\x1b' :: "[33m".data from rfl] at hpre
    simp only [List.isPrefixOf, Bool.and_eq_true, beq_iff_eq] at hpre
    have : c = '\x1b' := hpre.1.symm
    subst this
    exact absurd hc (by decide)

/-- A marked decomposition: each segment is an unmarked piece of the input
followed by a marked digit run; `tail` is the unmarked remainder. -/
def flatT : List (List Char × List Char) → List Char → List Char
  | [], tail => tail
  | (pre, r) :: segs, tail => pre ++ (r ++ flatT segs tail)

/-- The rendered output of a marked decomposition (markers inserted). -/
def flatS : List (List Char × List Char) → List Char → List Char
  | [], tail => tail
  | (pre, r) :: segs, tail => pre ++ (opMark ++ (r ++ (clMark ++ flatS segs tail)))

/-- A marked decomposition after the opening markers have been removed. -/
def flatS1 : List (List Char × List Char) → List Char → List Char
  | [], tail => tail
  | (pre, r) :: segs, tail => (pre ++ r) ++ (clMark ++ flatS1 segs tail)

/-- All marked runs of a decomposition are nonempty digit strings. -/
def GoodSegs (segs : List (List Char × List Char)) : Prop :=
  ∀ pr ∈ segs, pr.2 ≠ [] ∧ pr.2.all Char.isDigit = true

/-- Prepending input characters to the first unmarked piece. -/
def consPre (a : List Char) :
    List (List Char × List Char) × List Char →
      List (List Char × List Char) × List Char
  | ([], tail) => ([], a ++ tail)
  | ((pre, r) :: segs, tail) => ((a ++ pre, r) :: segs, tail)

theorem flatT_consPre (a : List Char) (segs : List (List Char × List Char))
    (tail : List Char) :
    flatT (consPre a (segs, tail)).1 (consPre a (segs, tail)).2 =
      a ++ flatT segs tail := by
  cases segs with
  | nil => simp [consPre, flatT]
  | cons pr segs' =>
    obtain ⟨pre, r⟩ := pr
    simp [consPre, flatT, List.append_assoc]

theorem flatS_consPre (a : List Char) (segs : List (List Char × List Char))
    (tail : List Char) :
    flatS (consPre a (segs, tail)).1 (consPre a (segs, tail)).2 =
      a ++ flatS segs tail := by
  cases segs with
  | nil => simp [consPre, flatS]
  | cons pr segs' =>
    obtain ⟨pre, r⟩ := pr
    simp [consPre, flatS, List.append_assoc]

theorem goodSegs_consPre (a : List Char) (segs : List (List Char × List Char))
    (tail : List Char) (h : GoodSegs segs) :
    GoodSegs (consPre a (segs, tail)).1 := by
  cases segs with
  | nil => intro pr hpr; simp [consPre] at hpr
  | cons pr0 segs' =>
    obtain ⟨pre, r⟩ := pr0
    intro pr hpr
    simp only [consPre, List.mem_cons] at hpr
    rcases hpr with h1 | h2
    · subst h1
      exact h (pre, r) (by simp)
    · exact h pr (by simp [h2])

theorem hl_decomp_aux :
    ∀ (n : Nat) (t : List Char), t.length ≤ n →
      (∀ prev, ∃ segs tail, GoodSegs segs ∧ flatT segs tail = t ∧
        joinL ((hlScan prev t).map renderChunk) = flatS segs tail) ∧
      (∀ acc, acc ≠ [] → acc.all Char.isDigit = true →
        ∃ segs tail, GoodSegs segs ∧ flatT segs tail = acc.reverse ++ t ∧
          joinL ((hlRunAux acc t).map renderChunk) = flatS segs tail) := by
  intro n
  induction n with
  | zero =>
    intro t ht
    have hnil : t = [] := List.eq_nil_of_length_eq_zero (Nat.le_zero.mp ht)
    subst hnil
    constructor
    · intro prev
      exact ⟨[], [], fun pr hpr => by simp at hpr, rfl, by simp [hlScan, joinL, flatS, flatT]⟩
    · intro acc hne hd
      refine ⟨[([], acc.reverse)], [], ?_, ?_, ?_⟩
      · intro pr hpr
        simp only [List.mem_singleton] at hpr
        subst hpr
        exact ⟨by simpa using hne, by simpa [List.all_reverse] using hd⟩
      · simp [flatT]
      · simp [hlRunAux, joinL, renderChunk, flatS]
  | succ n ih =>
    intro t ht
    cases t with
    | nil =>
      constructor
      · intro prev
        exact ⟨[], [], fun pr hpr => by simp at hpr, rfl, by simp [hlScan, joinL, flatS, flatT]⟩
      · intro acc hne hd
        refine ⟨[([], acc.reverse)], [], ?_, ?_, ?_⟩
        · intro pr hpr
          simp only [List.mem_singleton] at hpr
          subst hpr
          exact ⟨by simpa using hne, by simpa [List.all_reverse] using hd⟩
        · simp [flatT]
        · simp [hlRunAux, joinL, renderChunk, flatS]
    | cons c cs =>
      have hcs := ih cs (by
        simp only [List.length_cons] at ht
        omega)
      constructor
      · intro prev
        cases hcond : (c.isDigit && !prev) with
        | true =>
          have hcd : c.isDigit = true := (Bool.and_eq_true_iff.mp hcond).1
          obtain ⟨segs, tail, hg, hT, hS⟩ :=
            hcs.2 [c] (by simp) (by simp [hcd])
          refine ⟨segs, tail, hg, by simpa using hT, ?_⟩
          simp only [hlScan, hcond, if_true]
          exact hS
        | false =>
          obtain ⟨segs, tail, hg, hT, hS⟩ := hcs.1 (isWordChar c)
          refine ⟨(consPre [c] (segs, tail)).1, (consPre [c] (segs, tail)).2,
            goodSegs_consPre [c] segs tail hg, ?_, ?_⟩
          · rw [flatT_consPre, hT]
            simp
          · simp only [hlScan, hcond, Bool.false_eq_true, if_false,
              List.map_cons, joinL_cons, renderChunk]
            rw [flatS_consPre, hS]
      · intro acc hne hd
        cases hcd : c.isDigit with
        | true =>
          obtain ⟨segs, tail, hg, hT, hS⟩ :=
            hcs.2 (c :: acc) (by simp) (by simp [hcd, hd])
          refine ⟨segs, tail, hg, ?_, ?_⟩
          · rw [hT]
            simp
          · simp only [hlRunAux, hcd, if_true]
            exact hS
        | false =>
          cases hw : isWordChar c with
          | true =>
            obtain ⟨segs, tail, hg, hT, hS⟩ := hcs.1 true
            refine ⟨(consPre (acc.reverse ++ [c]) (segs, tail)).1,
              (consPre (acc.reverse ++ [c]) (segs, tail)).2,
              goodSegs_consPre _ segs tail hg, ?_, ?_⟩
            · rw [flatT_consPre, hT]
              simp
            · simp only [hlRunAux, hcd, hw, Bool.false_eq_true, if_false,
                if_true, List.map_cons, joinL_cons, renderChunk]
              rw [flatS_consPre, hS]
              simp
          | false =>
            obtain ⟨segs, tail, hg, hT, hS⟩ := hcs.1 false
            refine ⟨([], acc.reverse) :: (consPre [c] (segs, tail)).1,
              (consPre [c] (segs, tail)).2, ?_, ?_, ?_⟩
            · intro pr hpr
              simp only [List.mem_cons] at hpr
              rcases hpr with h1 | h2
              · subst h1
                exact ⟨by simpa using hne, by simpa [List.all_reverse] using hd⟩
              · exact goodSegs_consPre [c] segs tail hg pr h2
            · simp only [flatT]
              rw [flatT_consPre, hT]
              simp
            · simp only [hlRunAux, hcd, hw, Bool.false_eq_true, if_false,
                List.map_cons, joinL_cons, renderChunk]
              simp only [flatS]
              rw [flatS_consPre, hS]
              simp [List.append_assoc]

theorem hl_decomp (t : List Char) :
    ∃ segs tail, GoodSegs segs ∧ flatT segs tail = t ∧
      highlight_numbers t = flatS segs tail :=
  (hl_decomp_aux t.length t le_rfl).1 false

theorem stripOp :
    ∀ (segs : List (List Char × List Char)) (tail : List Char),
      GoodSegs segs → containsSub opMark (flatT segs tail) = false →
      replaceAll opMark (flatS segs tail) = flatS1 segs tail := by
  intro segs
  induction segs with
  | nil =>
    intro tail _ h
    simp only [flatS, flatS1]
    exact replaceAll_of_not_contains op_ne_nil (by simpa [flatT] using h)
  | cons pr segs' ih =>
    obtain ⟨pre, r⟩ := pr
    intro tail hg hsub
    have hgr := hg (pre, r) (by simp)
    have hg' : GoodSegs segs' := fun q hq => hg q (by simp [hq])
    have hsub' : containsSub opMark (flatT segs' tail) = false := by
      cases hcc : containsSub opMark (flatT segs' tail) with
      | false => rfl
      | true =>
        exfalso
        have hx : containsSub opMark (flatT ((pre, r) :: segs') tail) = true := by
          simp only [flatT]
          exact containsSub_append_right (containsSub_append_right hcc)
        simp [hsub] at hx
    have step1 : replaceAll opMark (flatS ((pre, r) :: segs') tail) =
        pre ++ replaceAll opMark (opMark ++ (r ++ (clMark ++ flatS segs' tail))) := by
      simp only [flatS]
      apply replaceAll_skip op_ne_nil
      intro x2 hne hsuf
      cases hpre : opMark.isPrefixOf
          (x2 ++ (opMark ++ (r ++ (clMark ++ flatS segs' tail)))) with
      | false => rfl
      | true =>
        exfalso
        rcases le_or_lt 5 x2.length with hge | hlt
        · have hpl : opMark <+: x2 :=
            prefix_long hpre (by simpa [show opMark.length = 5 from rfl] using hge)
          have h3 : pre <+: flatT ((pre, r) :: segs') tail := by
            simp only [flatT]
            exact List.prefix_append _ _
          have hinf : opMark <:+: flatT ((pre, r) :: segs') tail :=
            (hpl.isInfix.trans hsuf.isInfix).trans h3.isInfix
          have := containsSub_of_infix hinf
          simp [hsub] at this
        · have hk1 : 0 < x2.length := List.length_pos.mpr hne
          have hdr : opMark.drop x2.length =
              (opMark ++ (r ++ (clMark ++ flatS segs' tail))).take
                (opMark.length - x2.length) :=
            prefix_split hpre (by simp [show opMark.length = 5 from rfl]; omega)
          rw [List.take_append_of_le_length (Nat.sub_le _ _)] at hdr
          exact op_no_self_overlap x2.length hk1 hlt
            (by simpa [show opMark.length = 5 from rfl] using hdr)
    have step3 : replaceAll opMark (r ++ (clMark ++ flatS segs' tail)) =
        r ++ replaceAll opMark (clMark ++ flatS segs' tail) := by
      apply replaceAll_skip op_ne_nil
      intro x2 hne hsuf
      cases x2 with
      | nil => exact absurd rfl hne
      | cons c x2' =>
        have hc : c.isDigit = true := by
          have hmem : c ∈ r := hsuf.subset (by simp)
          exact (List.all_eq_true.mp hgr.2) c hmem
        rw [List.cons_append]
        exact opMark_not_prefix_digit hc _
    have step4 : replaceAll opMark (clMark ++ flatS segs' tail) =
        clMark ++ replaceAll opMark (flatS segs' tail) := by
      apply replaceAll_skip op_ne_nil
      intro x2 hne hsuf
      cases hpre : opMark.isPrefixOf (x2 ++ flatS segs' tail) with
      | false => rfl
      | true =>
        exfalso
        have hk1 : 0 < x2.length := List.length_pos.mpr hne
        have hk4 : x2.length ≤ 4 := by
          have := hsuf.length_le
          simpa [show clMark.length = 4 from rfl] using this
        have hcr : opMark.take x2.length = x2 :=
          prefix_cross hpre (by simp [show opMark.length = 5 from rfl]; omega)
        have hsd : x2 = clMark.drop (clMark.length - x2.length) :=
          suffix_drop_eq hsuf
        rw [show clMark.length = 4 from rfl] at hsd
        exact opTake_ne_clDrop x2.length hk1 hk4 (hcr.trans hsd)
    rw [step1, replaceAll_head op_ne_nil, step3, step4, ih tail hg' hsub']
    simp [flatS1, List.append_assoc]

theorem stripCl :
    ∀ (segs : List (List Char × List Char)) (tail : List Char),
      GoodSegs segs → containsSub clMark (flatT segs tail) = false →
      replaceAll clMark (flatS1 segs tail) = flatT segs tail := by
  intro segs
  induction segs with
  | nil =>
    intro tail _ h
    simp only [flatS1, flatT]
    exact replaceAll_of_not_contains cl_ne_nil (by simpa [flatT] using h)
  | cons pr segs' ih =>
    obtain ⟨pre, r⟩ := pr
    intro tail hg hsub
    have hg' : GoodSegs segs' := fun q hq => hg q (by simp [hq])
    have hsub' : containsSub clMark (flatT segs' tail) = false := by
      cases hcc : containsSub clMark (flatT segs' tail) with
      | false => rfl
      | true =>
        exfalso
        have hx : containsSub clMark (flatT ((pre, r) :: segs') tail) = true := by
          simp only [flatT]
          exact containsSub_append_right (containsSub_append_right hcc)
        simp [hsub] at hx
    have step1 : replaceAll clMark (flatS1 ((pre, r) :: segs') tail) =
        (pre ++ r) ++ replaceAll clMark (clMark ++ flatS1 segs' tail) := by
      simp only [flatS1]
      apply replaceAll_skip cl_ne_nil
      intro x2 hne hsuf
      cases hpre : clMark.isPrefixOf (x2 ++ (clMark ++ flatS1 segs' tail)) with
      | false => rfl
      | true =>
        exfalso
        rcases le_or_lt 4 x2.length with hge | hlt
        · have hpl : clMark <+: x2 :=
            prefix_long hpre (by simpa [show clMark.length = 4 from rfl] using hge)
          have h3 : (pre ++ r) <+: flatT ((pre, r) :: segs') tail := by
            simp only [flatT, ← List.append_assoc]
            exact List.prefix_append _ _
          have hinf : clMark <:+: flatT ((pre, r) :: segs') tail :=
            (hpl.isInfix.trans hsuf.isInfix).trans h3.isInfix
          have := containsSub_of_infix hinf
          simp [hsub] at this
        · have hk1 : 0 < x2.length := List.length_pos.mpr hne
          have hdr : clMark.drop x2.length =
              (clMark ++ flatS1 segs' tail).take (clMark.length - x2.length) :=
            prefix_split hpre (by simp [show clMark.length = 4 from rfl]; omega)
          rw [List.take_append_of_le_length (Nat.sub_le _ _)] at hdr
          exact cl_no_self_overlap x2.length hk1 hlt
            (by simpa [show clMark.length = 4 from rfl] using hdr)
    rw [step1, replaceAll_head cl_ne_nil, ih tail hg' hsub']
    simp [flatT, List.append_assoc]

theorem stripMarkers_hl {t : List Char} (h1 : containsSub opMark t = false)
    (h2 : containsSub clMark t = false) :
    stripMarkers (highlight_numbers t) = t := by
  obtain ⟨segs, tail, hg, hT, hS⟩ := hl_decomp t
  simp only [stripMarkers]
  rw [hS, stripOp segs tail hg (by rw [hT]; exact h1),
    stripCl segs tail hg (by rw [hT]; exact h2), hT]

/-- C10 counterexample: the claim fails for an input that already contains a
marker string.  `highlight_numbers` leaves "\x1b[0m" unchanged (its digit is
not boundary-delimited on the right), but removing every occurrence of the
markers erases the pre-existing closing marker, so the round trip returns ""
instead of the input. -/
theorem C10_marker_strip_cex :
    stripMarkers (highlight_numbers "\x1b[0m".data) = [] ∧
    ("\x1b[0m".data : List Char) ≠ [] := by
  constructor
  · have h1 : highlight_numbers "\x1b[0m".data = "\x1b[0m".data := by decide
    rw [h1]
    simp only [stripMarkers]
    rw [replaceAll_of_not_contains op_ne_nil
      (by decide : containsSub opMark "\x1b[0m".data = false)]
    rw [show ("\x1b[0m".data : List Char) = clMark ++ ([] : List Char) by decide]
    rw [replaceAll_head cl_ne_nil]
    exact replaceAll_nil _
  · decide

/-- C10 (amended): the highlighter only inserts marker strings and never
deletes, replaces, or reorders input characters — the non-marker contents of
its output pieces concatenate to the input — and for every input that does
not itself contain the opening or closing marker string as a substring,
removing every occurrence of both markers from the output yields exactly the
input. -/
theorem C10_marker_strip_amended :
    (∀ t : List Char, joinL ((hlScan false t).map contentOf) = t) ∧
    (∀ t : List Char, containsSub opMark t = false →
      containsSub clMark t = false →
      stripMarkers (highlight_numbers t) = t) :=
  ⟨fun t => hl_contents t false, fun _ h1 h2 => stripMarkers_hl h1 h2⟩

/-- Instance of `C10_marker_strip_amended` at a concrete input. -/
theorem C10_marker_strip_amended_witness :
    stripMarkers (highlight_numbers "7 dogs".data) = "7 dogs".data :=
  C10_marker_strip_amended.2 "7 dogs".data (by decide) (by decide)

end VoiceRec
